import Mathlib

/-!
Verification of the GitMax repository (gitmax.py, convert_oneliner.py):
a shallow embedding of its text processing, statistics bookkeeping,
staging / sync / push-retry decision logic, and the one-liner converter,
with theorems settling the specification claims.

Text is embedded as `List Char` (written `Str` below); Python string
operations are translated to executable Lean functions on `Str`.
-/

/-- Text is modelled as a list of characters. -/
abbrev Str := List Char

/-- ASCII whitespace, matching the characters Python's `str.strip()` and
the regex class `\s` recognise on the ASCII range. -/
def isSpaceChar (c : Char) : Bool :=
  c = ' ' || c = '\t' || c = '\n' || c = '\r' || c = '\x0b' || c = '\x0c'

/-- Python `str.strip()`: drop whitespace from both ends. -/
def trimStr (l : Str) : Str :=
  ((l.dropWhile isSpaceChar).reverse.dropWhile isSpaceChar).reverse

/-- `beginsWith l p` holds when `p` is an initial run of `l`
(Python `str.startswith`). -/
def beginsWith : Str → Str → Bool
  | _, [] => true
  | [], _ :: _ => false
  | a :: l, b :: p => a = b && beginsWith l p

/-- `containsSub l p`: `p` occurs contiguously inside `l`
(Python `in` on strings). -/
def containsSub : Str → Str → Bool
  | [], p => beginsWith [] p
  | a :: rest, p => beginsWith (a :: rest) p || containsSub rest p

/-- Python `str.lower()` restricted to ASCII letters. -/
def lowerStr (l : Str) : Str := l.map Char.toLower

/-- Drop trailing dashes (Python `str.rstrip('-')`). -/
def rstripDash (l : Str) : Str := (l.reverse.dropWhile (fun c => c = '-')).reverse

/-- Strip dashes from both ends (Python `str.strip('-')`). -/
def stripDash (l : Str) : Str := rstripDash (l.dropWhile (fun c => c = '-'))

/-- Collapse every maximal run of dashes to a single dash
(the effect of `re.sub(r'-+', '-', name)`). -/
def collapseDashes : Str → Str
  | [] => []
  | [c] => [c]
  | a :: b :: rest =>
    if a = '-' && b = '-' then collapseDashes (b :: rest)
    else a :: collapseDashes (b :: rest)

/-- Characters kept by `re.sub(r'[^a-z0-9\-_]', '', name)`. -/
def validRepoChar (c : Char) : Bool :=
  ('a' ≤ c && c ≤ 'z') || ('0' ≤ c && c ≤ '9') || c = '-' || c = '_'

/-- Split on a single character (Python `str.split(c)`). -/
def splitOnCh (c : Char) : Str → List Str
  | [] => [[]]
  | a :: rest =>
    if a = c then [] :: splitOnCh c rest
    else
      match splitOnCh c rest with
      | [] => [[a]]
      | s :: ss => (a :: s) :: ss

/-- `PurePosixPath(path).name`: the final path segment, after dropping
empty and `"."` components (POSIX model of `pathlib`). -/
def lastSegment (path : Str) : Str :=
  ((splitOnCh '/' path).filter (fun s => s ≠ [] && s ≠ ".".data)).getLastD []

/-- Lines 100-107 of gitmax.py: lowercase the name, replace spaces with
dashes, collapse dash runs, drop characters outside `[a-z0-9-_]`, strip
leading and trailing dashes. -/
def repoNameCore (name : Str) : Str :=
  stripDash (((collapseDashes
    ((lowerStr name).map (fun c => if c = ' ' then '-' else c))).filter validRepoChar))

/-- The sanitisation pipeline of `path_to_repo_name` (gitmax.py:98-111):
`repoNameCore`, then truncation to 100 characters (removing a trailing
dash only when truncation happened, gitmax.py:109-110), falling back to
`"repo"` when empty. -/
def sanitizeRepoName (name : Str) : Str :=
  let n5 := repoNameCore name
  let n6 := if n5.length > 100 then rstripDash (n5.take 100) else n5
  if n6 = [] then "repo".data else n6

/-- `path_to_repo_name` (gitmax.py:98-111): derive a GitHub repository
name from a directory path. -/
def path_to_repo_name (path : Str) : Str :=
  sanitizeRepoName (lastSegment path)

/-- The claim's wording of the pipeline, as an independent definition:
identical steps, but stated as "truncate to at most 100 characters with no
trailing dash after truncation", i.e. the trailing-dash removal after
truncation is unconditional. -/
def specRepoName (path : Str) : Str :=
  let n5 := repoNameCore (lastSegment path)
  let n6 := rstripDash (n5.take 100)
  if n6 = [] then "repo".data else n6

/-! ### Command runner (gitmax.py:82-95) -/

/-- Outcome of the underlying `subprocess.run` call: normal completion
with an exit code and captured streams, a timeout, or any other
exception raised while executing. -/
inductive ProcOutcome where
  | completed (exitCode : Int) (stdout stderr : String)
  | timedOut
  | failed (desc : String)
deriving DecidableEq

/-- `run_cmd` (gitmax.py:82-95): run a command, returning a
`(success, stdout, stderr)` triple; never raises (modelled by totality).
With `capture = false` the streams are reported as empty. -/
def runCmd (capture : Bool) (outcome : ProcOutcome) : Bool × String × String :=
  match outcome with
  | .completed code out err =>
    (code = 0, if capture then out else "", if capture then err else "")
  | .timedOut => (false, "", "Command timed out")
  | .failed desc => (false, "", desc)

/-! ### Aggregate statistics (gitmax.py:43-60, 412-416) -/

/-- The shared `Stats` record (gitmax.py:43-51); the lock serialises the
increments, so the concurrent execution is modelled by a sequential fold
over the per-job outcomes. -/
structure Stats where
  total : Nat
  completed : Nat
  success : Nat
  failed : Nat
  lfsFiles : Nat
deriving DecidableEq, Repr

/-- `Stats.increment_completed` (gitmax.py:53-60): one call per finished
job, bumping `completed` unconditionally and exactly one of
`success`/`failed`. -/
def increment_completed (s : Stats) (ok : Bool) (lfsCount : Nat) : Stats :=
  { s with
    completed := s.completed + 1
    lfsFiles := s.lfsFiles + lfsCount
    success := if ok then s.success + 1 else s.success
    failed := if ok then s.failed else s.failed + 1 }

/-- Initial statistics for `n` enumerated jobs (gitmax.py:491). -/
def initStats (n : Nat) : Stats :=
  { total := n, completed := 0, success := 0, failed := 0, lfsFiles := 0 }

/-- The sequence of `increment_completed` calls issued by `worker_task`
(gitmax.py:412-416), one per job outcome `(success, lfs_count)`. -/
def runJobs (s : Stats) (outcomes : List (Bool × Nat)) : Stats :=
  outcomes.foldl (fun st o => increment_completed st o.1 o.2) s

/-! ### Staging verification (gitmax.py:320-337) -/

/-- Parse the output of `git diff --cached --name-only` into the staged
path list: `staged_out.strip().split('\n')` filtered to non-blank
entries, empty when the query itself failed (gitmax.py:324-325). -/
def parseStaged (ok : Bool) (out : Str) : List Str :=
  if ok then (splitOnCh '\n' (trimStr out)).filter (fun f => trimStr f ≠ []) else []

/-- The failure message of the staging check (gitmax.py:336). -/
def stagingFailMsg (totalFiles : Nat) : Str :=
  "STAGING FAILED - ".data ++ (Nat.repr totalFiles).data ++ " files exist but 0 staged!".data

/-- The staging verification of `process_directory` (gitmax.py:320-337):
`(ok1, out1)` is the staged-files query after `git add -A`, and
`(ok2, out2)` the re-query after the two alternative re-staging
invocations (`git add .`, `git add --all`). Returns `some msg` when the
job fails with the staging-failed message, `none` when the workflow
continues. -/
def stagingOutcome (totalFiles : Nat) (ok1 : Bool) (out1 : Str)
    (ok2 : Bool) (out2 : Str) : Option Str :=
  let staged1 := parseStaged ok1 out1
  if totalFiles > 0 && staged1.length = 0 then
    let staged2 := parseStaged ok2 out2
    if totalFiles > 0 && staged2.length = 0 then some (stagingFailMsg totalFiles)
    else none
  else none

/-! ### Already-synced check (gitmax.py:230-246, 261-267) -/

/-- The observations `is_already_synced` makes about a job directory:
whether `.git` exists, and the `(success, stdout)` of the three git
queries it may run. -/
structure GitEnv where
  gitDirExists : Bool
  remoteOk : Bool
  remoteOut : Str
  statusOk : Bool
  statusOut : Str
  aheadOk : Bool
  aheadOut : Str

/-- `is_already_synced` (gitmax.py:230-246): returns `(synced, reason)`.
Any failing or non-clean query falls through to a not-synced verdict. -/
def is_already_synced (env : GitEnv) : Bool × Str :=
  if !env.gitDirExists then (false, "No .git".data)
  else if !(env.remoteOk && trimStr env.remoteOut ≠ []) then (false, "No remote".data)
  else if env.statusOk && trimStr env.statusOut = [] then
    if env.aheadOk && trimStr env.aheadOut = "0".data then (true, "Already synced".data)
    else (false, "Has changes".data)
  else (false, "Has changes".data)

/-- The command issued by the remote query of `is_already_synced`. -/
def remoteQueryCmd : Str := "git remote get-url origin".data

/-- The command issued by the working-tree query of `is_already_synced`. -/
def statusQueryCmd : Str := "git status --porcelain".data

/-- The command issued by the ahead-count query of `is_already_synced`. -/
def aheadQueryCmd : Str := "git rev-list --count origin/main..HEAD 2>nul".data

/-- The commands `is_already_synced` actually runs in `env`, in order:
the remote query only when `.git` exists, the status query only when the
remote query passed, the ahead query only when the tree is clean. -/
def syncTrace (env : GitEnv) : List Str :=
  if !env.gitDirExists then []
  else
    remoteQueryCmd ::
      (if !(env.remoteOk && trimStr env.remoteOut ≠ []) then []
       else
         statusQueryCmd ::
           (if env.statusOk && trimStr env.statusOut = [] then [aheadQueryCmd] else []))

/-- The slice of the per-job `Result` relevant to the sync check. -/
structure ResultR where
  success : Bool
  message : Str
  repoUrl : Str
deriving DecidableEq

/-- The sync-check phase of `process_directory` (gitmax.py:261-267):
`some r` models the early `return result` at line 267 (so nothing after
it runs), `none` means the workflow continues into the mutating steps;
the trace lists the commands run so far. -/
def processSyncPhase (env : GitEnv) (repoName : Str) : Option ResultR × List Str :=
  let s := is_already_synced env
  (if s.1 then
     some { success := true
            message := "SKIPPED - ".data ++ s.2
            repoUrl := "https://github.com/Michaelunkai/".data ++ repoName }
   else none,
   syncTrace env)

/-! ### Push retry loop (gitmax.py:360-390) -/

/-- The seconds slept after a failed push attempt (0-based `attempt`),
by the error-text classification of gitmax.py:368-386. The first branch
also issues a `git lfs push` before its fixed 2-second sleep. -/
def sleepAfterFail (err : Str) (attempt : Nat) : Nat :=
  let el := lowerStr err
  if containsSub el "large file".data || containsSub el "100 mb".data
      || containsSub el "exceeds".data then 2
  else if containsSub el "rate limit".data || containsSub err "403".data then
    10 * (attempt + 1)
  else if containsSub el "timeout".data || containsSub el "connection".data then
    5 * 2 ^ attempt
  else if containsSub el "non-fast-forward".data then 1
  else 2 * (attempt + 1)

/-- The push loop (gitmax.py:361-387) from attempt index `a` with the
given remaining budget: `res i = none` means attempt `i` succeeded,
`res i = some e` that it failed with stderr `e`. Returns
`(push_ok, attempts made, last error seen)`. -/
def pushLoopAux (res : Nat → Option Str) (lastErr : Str) : Nat → Nat → Bool × Nat × Str
  | _, 0 => (false, 0, lastErr)
  | a, fuel + 1 =>
    match res a with
    | none => (true, 1, lastErr)
    | some e =>
      let r := pushLoopAux res e (a + 1) fuel
      (r.1, r.2.1 + 1, r.2.2)

/-- The full push-retry loop: at most 5 attempts starting at attempt 0. -/
def pushLoop (res : Nat → Option Str) : Bool × Nat × Str :=
  pushLoopAux res [] 0 5

/-- The failure message after all attempts fail (gitmax.py:389). -/
def pushFailMsg (err : Str) : Str :=
  "git push failed after 5 attempts: ".data ++
    (if err = [] then "unknown".data else err.take 80)

/-! ### Large-file detection (gitmax.py:154-184) -/

/-- 100 MiB, the `GITHUB_FILE_LIMIT` constant (gitmax.py:37). -/
def GITHUB_FILE_LIMIT : Nat := 100 * 1024 * 1024

/-- One entry of the `rglob("*")` walk: its path components relative to
the scanned root, whether it is a regular file, and its `st_size`
(`none` when `stat` raised, which the code swallows). -/
structure FileEntry where
  parts : List Str
  isFile : Bool
  size : Option Nat

/-- `str(rel_path).replace("\\", "/")` (gitmax.py:166): join the
relative components with `/`, then rewrite any backslash to `/`. -/
def relPathStr (parts : List Str) : Str :=
  ((parts.intersperse "/".data).flatten).map (fun c => if c = '\\' then '/' else c)

/-- Whether an entry's size strictly exceeds the limit; a failed `stat`
is skipped (gitmax.py:163-168). -/
def sizeExceeds (size : Option Nat) : Bool :=
  match size with
  | none => false
  | some n => GITHUB_FILE_LIMIT < n

/-- `get_large_files` (gitmax.py:154-170): the relative forward-slash
paths of every regular file, outside any `.git` component of the full
path (`rootParts ++ parts`), whose size strictly exceeds the limit. -/
def get_large_files (rootParts : List Str) (entries : List FileEntry) : List Str :=
  (entries.filter (fun e =>
      !decide (".git".data ∈ rootParts ++ e.parts) && e.isFile && sizeExceeds e.size)).map
    (fun e => relPathStr e.parts)

/-- The final path segment of a forward-slash relative path
(`Path(f).name` for the paths produced by `get_large_files`). -/
def baseName (f : Str) : Str := (splitOnCh '/' f).getLastD []

/-- `Path(f).suffix`: the extension of the final segment, empty when the
last dot is absent, first, or final (`pathlib` semantics). -/
def pathSuffix (name : Str) : Str :=
  let r := name.reverse
  let tail := r.takeWhile (fun c => c ≠ '.')
  if tail.length = name.length then []
  else if tail.length = 0 then []
  else if tail.length = name.length - 1 then []
  else '.' :: tail.reverse

/-- The tracking pattern one large file contributes (gitmax.py:176-183):
a lowercased extension wildcard when it has an extension, otherwise its
literal relative path. -/
def lfsPatternOf (f : Str) : Str :=
  let ext := lowerStr (pathSuffix (baseName f))
  if ext ≠ [] then '*' :: ext else f

/-- Insertion into the pattern set, keeping first-insertion order. -/
def insertIfAbsent (x : Str) (l : List Str) : List Str :=
  if x ∈ l then l else l ++ [x]

/-- `get_lfs_patterns` (gitmax.py:173-184): the set of tracking patterns
of a list of large-file paths, modelled as a duplicate-free list. -/
def get_lfs_patterns (files : List Str) : List Str :=
  files.foldl (fun acc f => insertIfAbsent (lfsPatternOf f) acc) []

/-! ### List-file parsing (gitmax.py:136-151) -/

/-- Python `line.split('; ')`: split on the exact two-character
separator `;` followed by a space, scanning left to right. -/
def splitGitSep : Str → List Str
  | [] => [[]]
  | [c] => [[c]]
  | a :: b :: rest =>
    if a = ';' && b = ' ' then [] :: splitGitSep rest
    else
      match splitGitSep (b :: rest) with
      | [] => [[a]]
      | s :: ss => (a :: s) :: ss

/-- The entries one stripped, non-blank, non-comment line contributes in
`read_dirs_from_file` (gitmax.py:143-150): a legacy `gitit ` line is
split on `"; "` and only segments again starting with `gitit ` survive,
each contributing the segment minus the 6-character marker, stripped;
any other line is taken whole. -/
def dirsOfLine (line : Str) : List Str :=
  if beginsWith line "gitit ".data then
    (splitGitSep line).filterMap (fun part =>
      if beginsWith part "gitit ".data then some (trimStr (part.drop 6)) else none)
  else [line]

/-- `read_dirs_from_file` (gitmax.py:136-151) over the list of raw
lines: strip each line, skip blanks and `#` comments, expand the rest
with `dirsOfLine`. -/
def read_dirs_from_file (lines : List Str) : List Str :=
  (lines.map (fun raw =>
    let line := trimStr raw
    if line ≠ [] && !beginsWith line "#".data then dirsOfLine line else [])).flatten

/-! ### One-liner converter (convert_oneliner.py:8-33) -/

/-- One match attempt of the pattern `gitit\s+([^;]+)` at the head of
`l`: on success, the captured group and the remainder of the input after
the whole match. The `\s+` run is taken greedily; when the capture would
otherwise be empty (next char is `;` or end of input) the regex engine
backtracks one whitespace character into the capture, which requires the
whitespace run to have length at least 2. -/
def matchGitit (l : Str) : Option (Str × Str) :=
  if beginsWith l "gitit".data then
    let rest := l.drop 5
    let ws := rest.takeWhile isSpaceChar
    let aft := rest.drop ws.length
    if ws.length = 0 then none
    else
      let cap := aft.takeWhile (fun c => c ≠ ';')
      if cap ≠ [] then some (cap, aft.drop cap.length)
      else if 2 ≤ ws.length then some ([ws.getLastD ' '], aft)
      else none
  else none

/-- `re.findall(r'gitit\s+([^;]+)', content)`: scan left to right,
emitting each leftmost non-overlapping match's capture and resuming
after the match. `fuel` bounds the iteration; every step consumes at
least one character, so `fuel = l.length` never truncates. -/
def findAllAux : Nat → Str → List Str
  | 0, _ => []
  | _, [] => []
  | fuel + 1, c :: rest =>
    match matchGitit (c :: rest) with
    | some (cap, rem) => cap :: findAllAux fuel rem
    | none => findAllAux fuel rest

/-- All captures of `gitit\s+([^;]+)` in `content`. -/
def findAllGitit (content : Str) : List Str :=
  findAllAux content.length content

/-- The stripped, non-blank captures (convert_oneliner.py:14-15). -/
def extractPaths (content : Str) : List Str :=
  (findAllGitit content).map trimStr |>.filter (fun p => p ≠ [])

/-- The order-preserving deduplication of convert_oneliner.py:18-23:
`seen` is the set of already-emitted paths. -/
def dedupFirstAux (seen : List Str) : List Str → List Str
  | [] => []
  | p :: rest =>
    if p ∈ seen then dedupFirstAux seen rest
    else p :: dedupFirstAux (p :: seen) rest

/-- Deduplicate, keeping the first occurrence of each path. -/
def dedupFirst (l : List Str) : List Str := dedupFirstAux [] l

/-- `convert_oneliner` (convert_oneliner.py:8-33): the unique extracted
paths, in order of first occurrence. -/
def convert_oneliner (content : Str) : List Str :=
  dedupFirst (extractPaths content)

/-! ### Helper lemmas -/

/-- `beginsWith` characterised by an append decomposition. -/
theorem beginsWith_iff {l p : Str} : beginsWith l p = true ↔ ∃ y, l = p ++ y := by
  induction p generalizing l with
  | nil => simp [beginsWith]
  | cons b p ih =>
    cases l with
    | nil => simp [beginsWith]
    | cons a l =>
      simp only [beginsWith, Bool.and_eq_true, decide_eq_true_eq, ih, List.cons_append]
      constructor
      · rintro ⟨rfl, y, rfl⟩; exact ⟨y, rfl⟩
      · rintro ⟨y, h⟩
        injection h with h1 h2
        exact ⟨h1, y, h2⟩

/-- `containsSub` characterised by an append decomposition. -/
theorem containsSub_iff {l p : Str} : containsSub l p = true ↔ ∃ x y, l = x ++ p ++ y := by
  induction l with
  | nil =>
    simp only [containsSub, beginsWith_iff]
    constructor
    · rintro ⟨y, h⟩; exact ⟨[], y, by simpa using h⟩
    · rintro ⟨x, y, h⟩
      obtain ⟨-, h3, -⟩ : x = [] ∧ p = [] ∧ y = [] := by simpa using h.symm
      exact ⟨[], by simp [h3]⟩
  | cons a rest ih =>
    simp only [containsSub, Bool.or_eq_true, beginsWith_iff, ih]
    constructor
    · rintro (⟨y, h⟩ | ⟨x, y, h⟩)
      · exact ⟨[], y, by simpa using h⟩
      · exact ⟨a :: x, y, by simp [h]⟩
    · rintro ⟨x, y, h⟩
      cases x with
      | nil => exact Or.inl ⟨y, by simpa using h⟩
      | cons b x =>
        injection h with h1 h2
        exact Or.inr ⟨x, y, h2⟩

/-- A string built around an occurrence of `p` contains `p`. -/
theorem containsSub_of_eq_append {l x p y : Str} (h : l = x ++ p ++ y) :
    containsSub l p = true :=
  containsSub_iff.mpr ⟨x, y, h⟩

/-- `List.dropWhile` is idempotent. -/
theorem dropWhile_idem (p : Char → Bool) (l : Str) :
    (l.dropWhile p).dropWhile p = l.dropWhile p := by
  induction l with
  | nil => rfl
  | cons a t ih =>
    by_cases h : p a = true
    · simp [List.dropWhile, h, ih]
    · simp [List.dropWhile, h]

/-- `rstripDash` is idempotent. -/
theorem rstripDash_idem (l : Str) : rstripDash (rstripDash l) = rstripDash l := by
  unfold rstripDash
  rw [List.reverse_reverse, dropWhile_idem]

/-- Stripping trailing dashes after a both-ends strip changes nothing. -/
theorem rstripDash_stripDash (l : Str) : rstripDash (stripDash l) = stripDash l := by
  unfold stripDash
  exact rstripDash_idem _

/-! ### C1: repository name derivation -/

set_option maxRecDepth 4000 in
/-- C1. `path_to_repo_name` computes exactly the pipeline of the claim:
final path segment, lowercased, spaces to dashes, dash runs collapsed,
characters outside `[a-z0-9-_]` removed, surrounding dashes stripped,
truncated to at most 100 characters with no trailing dash after
truncation, with fallback `"repo"` when empty. In particular
`"My Cool App!!"` yields `"my-cool-app"`, an all-invalid name yields the
fallback, and a 150-character valid name is truncated to 100 characters
(and a truncation that would end in a dash drops it). -/
theorem path_to_repo_name_matches_spec :
    (∀ path : Str, path_to_repo_name path = specRepoName path) ∧
    path_to_repo_name "My Cool App!!".data = "my-cool-app".data ∧
    path_to_repo_name "/tmp/My Cool App!!".data = "my-cool-app".data ∧
    path_to_repo_name "!!!".data = "repo".data ∧
    path_to_repo_name (List.replicate 150 'a') = List.replicate 100 'a' ∧
    path_to_repo_name (List.replicate 99 'a' ++ "-".data ++ List.replicate 50 'b')
      = List.replicate 99 'a' := by
  refine ⟨?_, by decide, by decide, by decide, by decide, by decide⟩
  intro path
  have h5 : rstripDash (repoNameCore (lastSegment path)) = repoNameCore (lastSegment path) := by
    unfold repoNameCore
    exact rstripDash_stripDash _
  unfold path_to_repo_name sanitizeRepoName specRepoName
  by_cases h : (repoNameCore (lastSegment path)).length > 100
  · simp only [h, if_true]
  · simp only [h, if_false]
    rw [List.take_of_length_le (by omega), h5]

/-! ### C3: aggregate statistics invariant -/

/-- Each run of jobs adds exactly its length to `completed`. -/
theorem runJobs_completed (outcomes : List (Bool × Nat)) :
    ∀ s : Stats, (runJobs s outcomes).completed = s.completed + outcomes.length := by
  induction outcomes with
  | nil => intro s; simp [runJobs]
  | cons o rest ih =>
    intro s
    have := ih (increment_completed s o.1 o.2)
    simp only [runJobs, List.foldl_cons] at this ⊢
    rw [this]
    simp [increment_completed]
    omega

/-- Each run of jobs adds exactly its length to `success + failed`. -/
theorem runJobs_success_failed (outcomes : List (Bool × Nat)) :
    ∀ s : Stats, (runJobs s outcomes).success + (runJobs s outcomes).failed
      = s.success + s.failed + outcomes.length := by
  induction outcomes with
  | nil => intro s; simp [runJobs]
  | cons o rest ih =>
    intro s
    have := ih (increment_completed s o.1 o.2)
    simp only [runJobs, List.foldl_cons] at this ⊢
    rw [this]
    cases h : o.1 <;> simp [increment_completed, h] <;> omega

/-- `total` is never touched by the workers. -/
theorem runJobs_total (outcomes : List (Bool × Nat)) :
    ∀ s : Stats, (runJobs s outcomes).total = s.total := by
  induction outcomes with
  | nil => intro s; simp [runJobs]
  | cons o rest ih =>
    intro s
    have := ih (increment_completed s o.1 o.2)
    simp only [runJobs, List.foldl_cons] at this ⊢
    rw [this]
    simp [increment_completed]

/-- C3. Every `increment_completed` call bumps `completed` by exactly one
whatever the job outcome; after every prefix of the increments issued for
the jobs, `completed = success + failed` and `completed ≤ total` hold;
and when every one of the `n` jobs has reported, `completed = total`. -/
theorem stats_invariant (n : Nat) (outcomes : List (Bool × Nat))
    (h : outcomes.length ≤ n) :
    (∀ (s : Stats) (ok : Bool) (c : Nat),
      (increment_completed s ok c).completed = s.completed + 1) ∧
    (∀ k,
      (runJobs (initStats n) (outcomes.take k)).completed
        = (runJobs (initStats n) (outcomes.take k)).success
          + (runJobs (initStats n) (outcomes.take k)).failed ∧
      (runJobs (initStats n) (outcomes.take k)).completed
        ≤ (runJobs (initStats n) (outcomes.take k)).total) ∧
    (outcomes.length = n →
      (runJobs (initStats n) outcomes).completed
        = (runJobs (initStats n) outcomes).total) := by
  refine ⟨fun s ok c => rfl, fun k => ⟨?_, ?_⟩, fun hn => ?_⟩
  · rw [runJobs_completed, runJobs_success_failed]
    simp [initStats]
  · rw [runJobs_completed, runJobs_total]
    have := List.length_take k outcomes
    simp only [initStats]
    omega
  · rw [runJobs_completed, runJobs_total]
    simp [initStats, hn]

/-- Witness for C3 at a concrete run of two jobs, one success and one
failure. -/
theorem stats_invariant_witness :
    (runJobs (initStats 2) [(true, 0), (false, 1)]).completed
      = (runJobs (initStats 2) [(true, 0), (false, 1)]).total :=
  (stats_invariant 2 [(true, 0), (false, 1)] (by decide)).2.2 (by decide)

/-! ### C4: the staging-failed condition -/

/-- C4. `stagingOutcome` fails exactly when the counted file total is
nonzero and both the first staging check and the re-check after the two
alternative re-staging invocations find zero staged paths; a zero-file
directory never fails; and every failure message carries the
staging-failed marker text. -/
theorem staging_failed_iff (total : Nat) (ok1 : Bool) (out1 : Str)
    (ok2 : Bool) (out2 : Str) :
    ((stagingOutcome total ok1 out1 ok2 out2).isSome = true
      ↔ 0 < total ∧ parseStaged ok1 out1 = [] ∧ parseStaged ok2 out2 = []) ∧
    stagingOutcome 0 ok1 out1 ok2 out2 = none ∧
    (∀ msg, stagingOutcome total ok1 out1 ok2 out2 = some msg →
      containsSub (lowerStr msg) "staging failed".data = true) := by
  refine ⟨?_, ?_, ?_⟩
  · unfold stagingOutcome
    by_cases h1 : parseStaged ok1 out1 = [] <;>
      by_cases h2 : parseStaged ok2 out2 = [] <;>
        by_cases ht : 0 < total <;>
          simp_all [List.length_eq_zero, Nat.pos_iff_ne_zero]
  · unfold stagingOutcome
    simp
  · intro msg hmsg
    unfold stagingOutcome at hmsg
    have hm : msg = stagingFailMsg total := by
      by_cases h1 : total > 0 && (parseStaged ok1 out1).length = 0 <;>
        simp [h1] at hmsg <;>
        by_cases h2 : total > 0 && (parseStaged ok2 out2).length = 0 <;>
          simp_all
    subst hm
    unfold stagingFailMsg lowerStr
    rw [List.map_append, List.map_append]
    refine containsSub_of_eq_append (x := [])
      (y := ((" - ".data ++ ((Nat.repr total).data.map Char.toLower)
        ++ (" files exist but 0 staged!".data.map Char.toLower)))) ?_
    have : ("STAGING FAILED - ".data.map Char.toLower)
        = "staging failed".data ++ " - ".data := by decide
    rw [this]
    simp

/-- Witness for C4 at a concrete failing staging state: three files
counted, both staged-path queries empty. -/
theorem staging_failed_iff_witness :
    (stagingOutcome 3 true [] true []).isSome = true :=
  (staging_failed_iff 3 true [] true []).1.mpr ⟨by decide, by decide, by decide⟩

/-! ### C7: the command runner contract -/

/-- C7 counterexample. On timeout the runner's stderr component is the
string `"Command timed out"`, not the claim's `"timed out"`: the claimed
return triple is not the one returned. -/
theorem runCmd_timeout_counterexample :
    runCmd true ProcOutcome.timedOut ≠ (false, "", "timed out") ∧
    runCmd true ProcOutcome.timedOut = (false, "", "Command timed out") := by
  constructor
  · intro h
    have := congrArg (fun t => t.2.2) h
    simp [runCmd] at this
  · rfl

/-- C7 as amended. The runner is a total function (it never raises): on
normal completion it returns `(succeeded, stdout, stderr)` with
`succeeded` true exactly when the exit status is zero (streams empty when
capture is off); on timeout it returns `(false, "", "Command timed out")`;
on any other execution failure it returns `(false, "", desc)` where
`desc` describes the failure. -/
theorem runCmd_spec (code : Int) (out err : String) (desc : String) :
    runCmd true (ProcOutcome.completed code out err) = (decide (code = 0), out, err) ∧
    runCmd false (ProcOutcome.completed code out err) = (decide (code = 0), "", "") ∧
    (∀ capture, runCmd capture ProcOutcome.timedOut = (false, "", "Command timed out")) ∧
    (∀ capture, runCmd capture (ProcOutcome.failed desc) = (false, "", desc)) :=
  ⟨rfl, rfl, fun _ => rfl, fun _ => rfl⟩

/-! ### C5: the already-synced short-circuit -/

/-- The synced verdict holds exactly when all four queries pass. -/
theorem is_already_synced_iff (env : GitEnv) :
    (is_already_synced env).1 = true
      ↔ env.gitDirExists = true ∧ env.remoteOk = true ∧ trimStr env.remoteOut ≠ []
        ∧ env.statusOk = true ∧ trimStr env.statusOut = []
        ∧ env.aheadOk = true ∧ trimStr env.aheadOut = "0".data := by
  unfold is_already_synced
  split_ifs with h1 h2 h3 h4 <;> simp_all <;> (intros; rcases h2 with h2 | h2 <;> simp_all)

/-- A synced verdict always carries the `"Already synced"` reason. -/
theorem is_already_synced_eq (env : GitEnv)
    (h : (is_already_synced env).1 = true) :
    is_already_synced env = (true, "Already synced".data) := by
  unfold is_already_synced at h ⊢
  split_ifs at h ⊢ <;> simp_all

/-- C5. `is_already_synced` reports synced exactly when `.git` exists,
the remote query succeeds with non-blank output, the status query
succeeds with a clean tree, and the ahead-count query succeeds reporting
`0`; in that case the sync phase of `process_directory` returns early
with a successful result whose message is `"SKIPPED - Already synced"`
(the claim's `"already synced"`, case-insensitively), having run only
read-only query commands; whenever any condition fails, no early result
is produced and the workflow continues. -/
theorem already_synced_skips (env : GitEnv) (name : Str) :
    ((is_already_synced env).1 = true
      ↔ env.gitDirExists = true ∧ env.remoteOk = true ∧ trimStr env.remoteOut ≠ []
        ∧ env.statusOk = true ∧ trimStr env.statusOut = []
        ∧ env.aheadOk = true ∧ trimStr env.aheadOut = "0".data) ∧
    ((is_already_synced env).1 = true →
      (processSyncPhase env name).1
        = some { success := true
                 message := "SKIPPED - Already synced".data
                 repoUrl := "https://github.com/Michaelunkai/".data ++ name }) ∧
    containsSub (lowerStr "SKIPPED - Already synced".data) "already synced".data = true ∧
    (∀ c ∈ (processSyncPhase env name).2,
      c = remoteQueryCmd ∨ c = statusQueryCmd ∨ c = aheadQueryCmd) ∧
    ((is_already_synced env).1 = false → (processSyncPhase env name).1 = none) := by
  refine ⟨is_already_synced_iff env, ?_, by decide, ?_, ?_⟩
  · intro hs
    unfold processSyncPhase
    rw [is_already_synced_eq env hs]
    rfl
  · intro c hc
    unfold processSyncPhase syncTrace at hc
    simp only at hc
    split_ifs at hc <;> simp_all <;> tauto
  · intro hs
    unfold processSyncPhase
    simp [hs]

/-- Witness for C5 at a concrete fully-synced environment. -/
theorem already_synced_skips_witness :
    (processSyncPhase
        { gitDirExists := true, remoteOk := true, remoteOut := "url".data
          statusOk := true, statusOut := [], aheadOk := true, aheadOut := "0".data }
        "myrepo".data).1
      = some { success := true
               message := "SKIPPED - Already synced".data
               repoUrl := "https://github.com/Michaelunkai/myrepo".data } := by
  have h := (already_synced_skips
    { gitDirExists := true, remoteOk := true, remoteOut := "url".data
      statusOk := true, statusOut := [], aheadOk := true, aheadOut := "0".data }
    "myrepo".data).2.1 (by decide)
  rw [h]
  decide

/-! ### C2: push retry and backoff classification -/

/-- The loop never makes more attempts than its remaining budget. -/
theorem pushLoopAux_attempts_le (res : Nat → Option Str) :
    ∀ (fuel a : Nat) (lastErr : Str),
      (pushLoopAux res lastErr a fuel).2.1 ≤ fuel := by
  intro fuel
  induction fuel with
  | zero => intro a lastErr; simp [pushLoopAux]
  | succ f ih =>
    intro a lastErr
    unfold pushLoopAux
    cases res a with
    | none => simp
    | some e =>
      simp only
      have := ih (a + 1) e
      omega

/-- If the first success among the budgeted attempts is at offset `k`,
the loop succeeds after exactly `k + 1` attempts. -/
theorem pushLoopAux_first_success (res : Nat → Option Str) :
    ∀ (k a fuel : Nat) (lastErr : Str), k < fuel →
      (∀ j, j < k → res (a + j) ≠ none) → res (a + k) = none →
      (pushLoopAux res lastErr a fuel).1 = true ∧
      (pushLoopAux res lastErr a fuel).2.1 = k + 1 := by
  intro k
  induction k with
  | zero =>
    intro a fuel lastErr hk hprev hk0
    obtain ⟨f, rfl⟩ : ∃ f, fuel = f + 1 := ⟨fuel - 1, by omega⟩
    rw [Nat.add_zero] at hk0
    unfold pushLoopAux
    rw [hk0]
    exact ⟨rfl, rfl⟩
  | succ k ih =>
    intro a fuel lastErr hk hprev hkk
    obtain ⟨f, rfl⟩ : ∃ f, fuel = f + 1 := ⟨fuel - 1, by omega⟩
    obtain ⟨e, he⟩ : ∃ e, res a = some e := by
      have h0 := hprev 0 (by omega)
      rw [Nat.add_zero] at h0
      cases hra : res a with
      | none => exact absurd hra h0
      | some e => exact ⟨e, rfl⟩
    unfold pushLoopAux
    rw [he]
    simp only
    have hrec := ih (a + 1) f e (by omega)
      (fun j hj => by
        have := hprev (j + 1) (by omega)
        simpa [Nat.add_assoc, Nat.add_comm 1 j] using this)
      (by
        have : a + 1 + k = a + (k + 1) := by omega
        rw [this]
        exact hkk)
    exact ⟨hrec.1, by omega⟩

/-- When every budgeted attempt fails, the loop reports failure after
exactly `fuel` attempts, carrying the error text of the last attempt. -/
theorem pushLoopAux_all_fail (res : Nat → Option Str) :
    ∀ (fuel a : Nat) (lastErr : Str), 0 < fuel →
      (∀ j, j < fuel → res (a + j) ≠ none) →
      ∃ e, res (a + (fuel - 1)) = some e ∧
        pushLoopAux res lastErr a fuel = (false, fuel, e) := by
  intro fuel
  induction fuel with
  | zero => intro a lastErr h; omega
  | succ f ih =>
    intro a lastErr _ hall
    obtain ⟨e, he⟩ : ∃ e, res a = some e := by
      have h0 := hall 0 (by omega)
      rw [Nat.add_zero] at h0
      cases hra : res a with
      | none => exact absurd hra h0
      | some e => exact ⟨e, rfl⟩
    by_cases hf : f = 0
    · subst hf
      refine ⟨e, by simpa using he, ?_⟩
      unfold pushLoopAux
      rw [he]
      simp [pushLoopAux]
    · obtain ⟨e', he', hrec⟩ := ih (a + 1) e (by omega)
        (fun j hj => by
          have := hall (j + 1) (by omega)
          simpa [Nat.add_assoc, Nat.add_comm 1 j] using this)
      refine ⟨e', ?_, ?_⟩
      · have : a + 1 + (f - 1) = a + (f + 1 - 1) := by omega
        rw [← this]
        exact he'
      · unfold pushLoopAux
        rw [he]
        simp only [hrec]

/-- C2 counterexample. An error text containing `"rate limit"` does not
always sleep longer than one containing `"non-fast-forward"`: at attempt
0, `"exceeds rate limit"` is caught by the earlier large-file branch
(`"exceeds"`) and sleeps 2 seconds, while `"connection non-fast-forward"`
is caught by the earlier connection branch and sleeps 5 seconds. -/
theorem push_sleep_counterexample :
    containsSub (lowerStr "exceeds rate limit".data) "rate limit".data = true ∧
    containsSub (lowerStr "connection non-fast-forward".data) "non-fast-forward".data = true ∧
    sleepAfterFail "exceeds rate limit".data 0 = 2 ∧
    sleepAfterFail "connection non-fast-forward".data 0 = 5 ∧
    ¬ sleepAfterFail "connection non-fast-forward".data 0
        < sleepAfterFail "exceeds rate limit".data 0 := by
  refine ⟨by decide, by decide, by decide, by decide, by decide⟩

/-- C2 as amended. The forced push is attempted at most 5 times and
retrying stops at the first success; after each failed attempt the error
text is classified in a fixed keyword order, and a push-error classified
into the rate-limit branch (containing `"rate limit"` or `"403"` but none
of the earlier large-file keywords) always sleeps strictly longer than
one classified into the non-fast-forward branch (containing
`"non-fast-forward"` but none of the earlier keywords) at the same
attempt number; if all 5 attempts fail the job fails with a message
containing `"after 5 attempts"` followed by at most the first 80
characters of the last error. -/
theorem push_retry_spec (res : Nat → Option Str) (e1 e2 : Str) (a k : Nat)
    (h1r : containsSub (lowerStr e1) "rate limit".data = true
      ∨ containsSub e1 "403".data = true)
    (h1a : containsSub (lowerStr e1) "large file".data = false)
    (h1b : containsSub (lowerStr e1) "100 mb".data = false)
    (h1c : containsSub (lowerStr e1) "exceeds".data = false)
    (h2n : containsSub (lowerStr e2) "non-fast-forward".data = true)
    (h2a : containsSub (lowerStr e2) "large file".data = false)
    (h2b : containsSub (lowerStr e2) "100 mb".data = false)
    (h2c : containsSub (lowerStr e2) "exceeds".data = false)
    (h2d : containsSub (lowerStr e2) "rate limit".data = false)
    (h2e : containsSub e2 "403".data = false)
    (h2f : containsSub (lowerStr e2) "timeout".data = false)
    (h2g : containsSub (lowerStr e2) "connection".data = false) :
    (pushLoop res).2.1 ≤ 5 ∧
    ((k < 5 ∧ (∀ j, j < k → res j ≠ none) ∧ res k = none) →
      (pushLoop res).1 = true ∧ (pushLoop res).2.1 = k + 1) ∧
    sleepAfterFail e2 a < sleepAfterFail e1 a ∧
    ((∀ j, j < 5 → res j ≠ none) →
      ∃ e, res 4 = some e ∧ pushLoop res = (false, 5, e) ∧
        containsSub (pushFailMsg e) "after 5 attempts".data = true ∧
        (e ≠ [] → pushFailMsg e
          = "git push failed after 5 attempts: ".data ++ e.take 80)) := by
  refine ⟨pushLoopAux_attempts_le res 5 0 [], ?_, ?_, ?_⟩
  · rintro ⟨hk, hprev, hsucc⟩
    have := pushLoopAux_first_success res k 0 5 [] hk
      (fun j hj => by simpa using hprev j hj) (by simpa using hsucc)
    exact this
  · have h1 : (containsSub (lowerStr e1) "rate limit".data
        || containsSub e1 "403".data) = true := by
      rcases h1r with h | h <;> simp [h]
    unfold sleepAfterFail
    simp only [h1a, h1b, h1c, h2a, h2b, h2c, h2d, h2e, h2f, h2g, h2n, h1,
      Bool.or_self, Bool.or_false, Bool.false_or]
    simp only [if_true, if_false]
    simp
    omega
  · intro hall
    obtain ⟨e, he, heq⟩ := pushLoopAux_all_fail res 5 0 [] (by omega)
      (fun j hj => by simpa using hall j hj)
    refine ⟨e, by simpa using he, heq, ?_, ?_⟩
    · unfold pushFailMsg
      refine containsSub_of_eq_append (x := "git push failed ".data)
        (y := ": ".data ++ (if e = [] then "unknown".data else e.take 80)) ?_
      have : "git push failed after 5 attempts: ".data
          = "git push failed ".data ++ "after 5 attempts".data ++ ": ".data := by
        decide
      rw [this]
      simp
    · intro hne
      unfold pushFailMsg
      rw [if_neg hne]

/-- Witness for C2 at a concrete run: plainly-classified error texts at
attempt 0, and a push that succeeds on its second attempt stops there. -/
theorem push_retry_spec_witness :
    sleepAfterFail "non-fast-forward".data 0 < sleepAfterFail "rate limit".data 0 ∧
    (pushLoop (fun j => if j = 1 then none else some ['x'])).1 = true ∧
    (pushLoop (fun j => if j = 1 then none else some ['x'])).2.1 = 2 := by
  have h := push_retry_spec (fun j => if j = 1 then none else some ['x'])
    "rate limit".data "non-fast-forward".data 0 1
    (Or.inl (by decide)) (by decide) (by decide) (by decide) (by decide)
    (by decide) (by decide) (by decide) (by decide) (by decide) (by decide)
    (by decide)
  have hstop := h.2.1 ⟨by omega,
    fun j hj => by
      have : j = 0 := by omega
      subst this
      decide,
    by decide⟩
  exact ⟨h.2.2.1, hstop.1, hstop.2⟩

/-! ### C6 and C9: large-file detection and tracking patterns -/

/-- Membership in the pattern set after one insertion. -/
theorem mem_insertIfAbsent (x y : Str) (l : List Str) :
    x ∈ insertIfAbsent y l ↔ x ∈ l ∨ x = y := by
  unfold insertIfAbsent
  split_ifs with h
  · constructor
    · exact Or.inl
    · rintro (hx | rfl)
      · exact hx
      · exact h
  · simp [List.mem_append]

/-- Membership in the folded pattern set. -/
theorem mem_foldl_insert (g : Str → Str) (files : List Str) :
    ∀ (init : List Str) (x : Str),
      x ∈ files.foldl (fun acc f => insertIfAbsent (g f) acc) init
        ↔ x ∈ init ∨ ∃ f ∈ files, x = g f := by
  induction files with
  | nil => intro init x; simp
  | cons f rest ih =>
    intro init x
    simp only [List.foldl_cons]
    rw [ih, mem_insertIfAbsent]
    constructor
    · rintro ((hx | hx) | ⟨f', hf', rfl⟩)
      · exact Or.inl hx
      · exact Or.inr ⟨f, List.mem_cons_self f rest, hx⟩
      · exact Or.inr ⟨f', List.mem_cons_of_mem f hf', rfl⟩
    · rintro (hx | ⟨f', hf', rfl⟩)
      · exact Or.inl (Or.inl hx)
      · rcases List.mem_cons.mp hf' with rfl | hf'
        · exact Or.inl (Or.inr rfl)
        · exact Or.inr ⟨f', hf', rfl⟩

/-- A size check succeeds exactly on a successful `stat` strictly above
the limit. -/
theorem sizeExceeds_iff (o : Option Nat) :
    sizeExceeds o = true ↔ ∃ sz, o = some sz ∧ 100 * 1024 * 1024 < sz := by
  cases o <;> simp [sizeExceeds, GITHUB_FILE_LIMIT]

/-- C6. Provided the scanned root itself has no `.git` component,
`get_large_files` collects exactly the regular files outside `.git`
whose size strictly exceeds 100 MiB, as forward-slash relative paths;
`get_lfs_patterns` contains exactly one pattern per collected file — an
extension wildcard when the file has an extension, its literal relative
path otherwise. A file of exactly 100 MiB + 1 byte is detected (and an
extensionless one patterns to its path), a file of exactly 100 MiB is
not. -/
theorem large_files_spec (rootParts : List Str) (entries : List FileEntry)
    (files : List Str) (hroot : ".git".data ∉ rootParts) :
    (∀ p, p ∈ get_large_files rootParts entries
      ↔ ∃ e ∈ entries, ".git".data ∉ e.parts ∧ e.isFile = true
          ∧ (∃ sz, e.size = some sz ∧ 100 * 1024 * 1024 < sz)
          ∧ p = relPathStr e.parts) ∧
    (∀ p, p ∈ get_lfs_patterns files ↔ ∃ f ∈ files, p = lfsPatternOf f) ∧
    (∀ f, pathSuffix (baseName f) ≠ [] →
      lfsPatternOf f = '*' :: lowerStr (pathSuffix (baseName f))) ∧
    (∀ f, pathSuffix (baseName f) = [] → lfsPatternOf f = f) ∧
    get_large_files []
        [{ parts := ["big.iso".data], isFile := true, size := some (100 * 1024 * 1024 + 1) }]
      = ["big.iso".data] ∧
    get_large_files []
        [{ parts := ["big.iso".data], isFile := true, size := some (100 * 1024 * 1024) }]
      = [] ∧
    get_lfs_patterns ["big.iso".data] = ["*.iso".data] ∧
    get_lfs_patterns ["bigfile".data] = ["bigfile".data] := by
  refine ⟨?_, ?_, ?_, ?_, by decide, by decide, by decide, by decide⟩
  · intro p
    unfold get_large_files
    simp only [List.mem_map, List.mem_filter, Bool.and_eq_true, Bool.not_eq_true',
      decide_eq_false_iff_not, List.mem_append, sizeExceeds_iff]
    constructor
    · rintro ⟨e, ⟨he, ⟨hgit, hfile⟩, hsz⟩, rfl⟩
      exact ⟨e, he, fun hp => hgit (Or.inr hp), hfile, hsz, rfl⟩
    · rintro ⟨e, he, hgit, hfile, hsz, rfl⟩
      exact ⟨e, ⟨he, ⟨fun hp => hp.elim hroot hgit, hfile⟩, hsz⟩, rfl⟩
  · intro p
    unfold get_lfs_patterns
    rw [mem_foldl_insert]
    simp
  · intro f h
    have hne : lowerStr (pathSuffix (baseName f)) ≠ [] := by
      simpa [lowerStr, List.map_eq_nil_iff] using h
    simp [lfsPatternOf, hne]
  · intro f h
    simp [lfsPatternOf, h, lowerStr]

/-- Witness for C6: the characterisation applied at a concrete
single-entry walk with a 100 MiB + 1 file. -/
theorem large_files_spec_witness :
    "big.iso".data ∈ get_large_files []
      [{ parts := ["big.iso".data], isFile := true, size := some (100 * 1024 * 1024 + 1) }] := by
  apply (large_files_spec []
    [{ parts := ["big.iso".data], isFile := true, size := some (100 * 1024 * 1024 + 1) }]
    [] (by decide)).1 "big.iso".data |>.mpr
  exact ⟨_, List.mem_singleton.mpr rfl, by decide, rfl, ⟨100 * 1024 * 1024 + 1, rfl, by omega⟩, by decide⟩

/-- C9. A detected large file with an extension always contributes the
lowercased extension wildcard, so names differing only in extension case
share one pattern: `["a.ISO", "b.iso"]` yields the single pattern
`"*.iso"`. -/
theorem lfs_pattern_lowercase (files : List Str) (f : Str)
    (h1 : f ∈ files) (h2 : pathSuffix (baseName f) ≠ []) :
    ('*' :: lowerStr (pathSuffix (baseName f))) ∈ get_lfs_patterns files ∧
    get_lfs_patterns ["a.ISO".data, "b.iso".data] = ["*.iso".data] := by
  constructor
  · unfold get_lfs_patterns
    rw [mem_foldl_insert]
    refine Or.inr ⟨f, h1, ?_⟩
    have hne : lowerStr (pathSuffix (baseName f)) ≠ [] := by
      simpa [lowerStr, List.map_eq_nil_iff] using h2
    simp [lfsPatternOf, hne]
  · decide

/-- Witness for C9 at the concrete file `"a.ISO"`. -/
theorem lfs_pattern_lowercase_witness :
    ('*' :: lowerStr (pathSuffix (baseName "a.ISO".data)))
      ∈ get_lfs_patterns ["a.ISO".data] :=
  (lfs_pattern_lowercase ["a.ISO".data] "a.ISO".data (by decide) (by decide)).1

/-! ### C10: legacy line splitting in list-file mode -/

/-- A list always begins with itself prefixed, i.e. `p ++ l` begins
with `p`. -/
theorem beginsWith_append_self (p l : Str) : beginsWith (p ++ l) p = true :=
  beginsWith_iff.mpr ⟨l, rfl⟩

/-- When the two-character separator `"; "` does not occur in a line,
`split('; ')` leaves it whole. -/
theorem splitGitSep_no_sep (l : Str) :
    containsSub l "; ".data = false → splitGitSep l = [l] := by
  induction l using splitGitSep.induct with
  | case1 => intro h; rfl
  | case2 c => intro h; rfl
  | case3 a b rest hab ih =>
    intro h
    exfalso
    obtain ⟨ha, hb⟩ : a = ';' ∧ b = ' ' := by simpa using hab
    subst ha
    subst hb
    simp [containsSub, beginsWith] at h
  | case4 a b rest hab hmatch ih =>
    intro h
    exfalso
    have hsub : containsSub (b :: rest) "; ".data = false := by
      simp only [containsSub, Bool.or_eq_false_iff] at h ⊢
      exact h.2
    rw [ih hsub] at hmatch
    exact absurd hmatch (by simp)
  | case5 a b rest hab s ss hmatch ih =>
    intro h
    have hsub : containsSub (b :: rest) "; ".data = false := by
      simp only [containsSub, Bool.or_eq_false_iff] at h ⊢
      exact h.2
    simp only [splitGitSep]
    rw [if_neg (by simpa using hab), ih hsub]

/-- C10. A legacy line `gitit <rest>` is split only on the exact
two-character separator `"; "` and only segments again beginning with
`"gitit "` survive (the definitional equation); consequently a legacy
line using bare `";"` separators with no following space contributes a
single path entry: the whole remainder of the line after the marker. -/
theorem legacy_line_split (rest : Str)
    (h : containsSub ("gitit ".data ++ rest) "; ".data = false) :
    (∀ line, beginsWith line "gitit ".data = true →
      dirsOfLine line = (splitGitSep line).filterMap (fun part =>
        if beginsWith part "gitit ".data = true then some (trimStr (part.drop 6))
        else none)) ∧
    dirsOfLine ("gitit ".data ++ rest) = [trimStr rest] ∧
    read_dirs_from_file ["gitit /a;gitit /b".data] = ["/a;gitit /b".data] := by
  refine ⟨?_, ?_, by decide⟩
  · intro line hline
    unfold dirsOfLine
    rw [if_pos hline]
  · unfold dirsOfLine
    rw [if_pos (beginsWith_append_self "gitit ".data rest), splitGitSep_no_sep _ h]
    simp only [List.filterMap]
    rw [if_pos (beginsWith_append_self "gitit ".data rest)]
    have hdrop : ("gitit ".data ++ rest).drop 6 = rest := by
      have h6 : ("gitit ".data).length = 6 := by decide
      rw [← h6, List.drop_left]
    rw [hdrop]

/-- Witness for C10 at the concrete legacy line
`gitit /a;gitit /b` (no space after the semicolon). -/
theorem legacy_line_split_witness :
    dirsOfLine ("gitit ".data ++ "/a;gitit /b".data)
      = [trimStr "/a;gitit /b".data] :=
  (legacy_line_split "/a;gitit /b".data (by decide)).2.1

/-! ### C8: the one-liner converter -/

/-- Membership in the deduplicated output: present in the input and not
already emitted. -/
theorem mem_dedupFirstAux (x : Str) (l : List Str) :
    ∀ seen, x ∈ dedupFirstAux seen l ↔ x ∈ l ∧ x ∉ seen := by
  induction l with
  | nil => intro seen; simp [dedupFirstAux]
  | cons p rest ih =>
    intro seen
    by_cases hp : p ∈ seen
    · rw [dedupFirstAux, if_pos hp, ih]
      by_cases hxp : x = p
      · subst hxp; simp [hp]
      · simp [hxp]
    · rw [dedupFirstAux, if_neg hp]
      simp only [List.mem_cons, ih]
      by_cases hxp : x = p
      · subst hxp; simp [hp]
      · simp only [List.mem_cons, hxp, false_or]
        try tauto

/-- The deduplicated output has no duplicates. -/
theorem nodup_dedupFirstAux (l : List Str) :
    ∀ seen, (dedupFirstAux seen l).Nodup := by
  induction l with
  | nil => intro seen; simp [dedupFirstAux]
  | cons p rest ih =>
    intro seen
    by_cases hp : p ∈ seen
    · rw [dedupFirstAux, if_pos hp]
      exact ih seen
    · rw [dedupFirstAux, if_neg hp]
      refine List.nodup_cons.mpr ⟨fun hmem => ?_, ih (p :: seen)⟩
      exact ((mem_dedupFirstAux p rest (p :: seen)).mp hmem).2 (List.mem_cons_self p seen)

/-- The emitted-set parameter only matters up to membership. -/
theorem dedupFirstAux_congr (l : List Str) :
    ∀ s s', (∀ y, y ∈ s ↔ y ∈ s') → dedupFirstAux s l = dedupFirstAux s' l := by
  induction l with
  | nil => intro s s' _; rfl
  | cons p rest ih =>
    intro s s' h
    by_cases hp : p ∈ s
    · rw [dedupFirstAux, if_pos hp, dedupFirstAux, if_pos ((h p).mp hp)]
      exact ih s s' h
    · rw [dedupFirstAux, if_neg hp, dedupFirstAux, if_neg (fun hx => hp ((h p).mpr hx))]
      refine congrArg (p :: ·) (ih (p :: s) (p :: s') ?_)
      intro y
      simp [List.mem_cons, h y]

/-- Marking `x` as emitted is the same as deleting its later
occurrences. -/
theorem dedupFirstAux_seen_filter (x : Str) (l : List Str) :
    ∀ s, dedupFirstAux (x :: s) l = dedupFirstAux s (l.filter (fun q => q ≠ x)) := by
  induction l with
  | nil => intro s; rfl
  | cons p rest ih =>
    intro s
    by_cases hpx : p = x
    · subst hpx
      rw [dedupFirstAux, if_pos (List.mem_cons_self p s)]
      have : (p :: rest).filter (fun q => q ≠ p) = rest.filter (fun q => q ≠ p) := by
        simp [List.filter]
      rw [this]
      exact ih s
    · have hkeep : (p :: rest).filter (fun q => q ≠ x)
          = p :: rest.filter (fun q => q ≠ x) := by
        simp [List.filter, hpx]
      rw [hkeep]
      by_cases hps : p ∈ s
      · rw [dedupFirstAux, if_pos (List.mem_cons_of_mem x hps),
          dedupFirstAux, if_pos hps]
        exact ih s
      · have hnx : p ∉ x :: s := by
          simp [List.mem_cons, hpx, hps]
        rw [dedupFirstAux, if_neg hnx, dedupFirstAux, if_neg hps]
        refine congrArg (p :: ·) ?_
        rw [dedupFirstAux_congr rest (p :: x :: s) (x :: p :: s)
          (by intro y; simp [List.mem_cons]; tauto)]
        exact ih (p :: s)

/-- The first occurrence stays in place and its later duplicates are
dropped, recursively: the first-occurrence-order characterisation. -/
theorem dedupFirst_cons (p : Str) (rest : List Str) :
    dedupFirst (p :: rest) = p :: dedupFirst (rest.filter (fun q => q ≠ p)) := by
  unfold dedupFirst
  rw [dedupFirstAux, if_neg (List.not_mem_nil p)]
  exact congrArg (p :: ·) (dedupFirstAux_seen_filter p rest [])

/-- C8. `convert_oneliner` deduplicates the extracted paths: its output
is duplicate-free, contains exactly the extracted paths, and keeps each
distinct path at its first occurrence (the `dedupFirst_cons`
characterisation), dropping later duplicates; on
`"gitit /a; gitit /b; gitit /a"` it outputs `["/a", "/b"]`. -/
theorem convert_oneliner_spec (content : Str) :
    convert_oneliner content = dedupFirst (extractPaths content) ∧
    (convert_oneliner content).Nodup ∧
    (∀ p, p ∈ convert_oneliner content ↔ p ∈ extractPaths content) ∧
    (∀ (p : Str) (rest : List Str),
      dedupFirst (p :: rest) = p :: dedupFirst (rest.filter (fun q => q ≠ p))) ∧
    convert_oneliner "gitit /a; gitit /b; gitit /a".data = ["/a".data, "/b".data] := by
  refine ⟨rfl, nodup_dedupFirstAux _ [], ?_, dedupFirst_cons, by decide⟩
  intro p
  unfold convert_oneliner dedupFirst
  rw [mem_dedupFirstAux]
  simp
